import Mathlib

/-!
Verification of the MSWS (middle-square Weyl sequence) random number
generator, a shallow embedding of the core functions of `include/msws.h`.

Machine integers are modelled as `Nat` with explicit reductions modulo
`2 ^ 64` (`uint64_t`) respectively `2 ^ 32` (`uint32_t`) wherever the C
arithmetic can wrap.  Function arguments of type `uint32_t` are `Nat`
arguments that theorems constrain with `< 2 ^ 32` hypotheses where the
bound matters.
-/

namespace Msws

/-- Modulus of the 64-bit machine words (`uint64_t`). -/
def p64 : Nat := 2 ^ 64

/-- Modulus of the 32-bit machine words (`uint32_t`). -/
def p32 : Nat := 2 ^ 32

/-- The three-word generator state `msws_t` of `include/msws.h`:
`ctx[0]` is `x`, `ctx[1]` is `w` (the Weyl accumulator) and `ctx[2]` is
`s` (the odd constant). -/
structure Ctx where
  x : Nat
  w : Nat
  s : Nat
deriving DecidableEq, Repr

/-- Embedding of `msws_uint32` (msws.h lines 62-66):

`ctx[0] *= ctx[0]; ctx[0] += (ctx[1] += ctx[2]);`
`return (uint32_t)(ctx[0] = (ctx[0] >> 32) | (ctx[0] << 32));`

The mutated state is returned as the first component, the returned
`uint32_t` as the second. -/
def msws_uint32 (ctx : Ctx) : Ctx × Nat :=
  let w1 := (ctx.w + ctx.s) % p64
  let x1 := (ctx.x * ctx.x % p64 + w1) % p64
  let x2 := (x1 >>> 32) ||| ((x1 <<< 32) % p64)
  (⟨x2, w1, ctx.s⟩, x2 % p32)

/-- Advancing the state by one raw draw, discarding the output. -/
def step (c : Ctx) : Ctx := (msws_uint32 c).1

/-- Advancing the state by `n` raw draws. -/
def stepN (n : Nat) (c : Ctx) : Ctx := step^[n] c

/-- Embedding of the table `DIV` of `msws_uint32_max` (msws.h lines 70-88). -/
def DIV : List Nat :=
  [ 0xFFFFFFFF, 0xFFFFFFFF, 0x80000000, 0x55555556,
    0x40000000, 0x33333334, 0x2AAAAAAB, 0x24924925,
    0x20000000, 0x1C71C71D, 0x1999999A, 0x1745D175,
    0x15555556, 0x13B13B14, 0x12492493, 0x11111112,
    0x10000000, 0x0F0F0F10, 0x0E38E38F, 0x0D79435F,
    0x0CCCCCCD, 0x0C30C30D, 0x0BA2E8BB, 0x0B21642D,
    0x0AAAAAAB, 0x0A3D70A4, 0x09D89D8A, 0x097B425F,
    0x0924924A, 0x08D3DCB1, 0x08888889, 0x08421085,
    0x08000000, 0x07C1F07D, 0x07878788, 0x07507508,
    0x071C71C8, 0x06EB3E46, 0x06BCA1B0, 0x06906907,
    0x06666667, 0x063E7064, 0x06186187, 0x05F417D1,
    0x05D1745E, 0x05B05B06, 0x0590B217, 0x0572620B,
    0x05555556, 0x0539782A, 0x051EB852, 0x05050506,
    0x04EC4EC5, 0x04D4873F, 0x04BDA130, 0x04A7904B,
    0x04924925, 0x047DC120, 0x0469EE59, 0x0456C798,
    0x04444445, 0x04325C54, 0x04210843, 0x04104105 ]

/-- Embedding of `msws_uint32_max` (msws.h lines 68-92):

`return (max < 64) ? (msws_uint32(ctx) / DIV[max])`
`                  : (msws_uint32(ctx) / (UINT32_MAX / max + 1U));`

`UINT32_MAX / max + 1U` is `uint32_t` arithmetic, hence the `% p32`. -/
def msws_uint32_max (ctx : Ctx) (max : Nat) : Ctx × Nat :=
  let r := msws_uint32 ctx
  if max < 64 then (r.1, r.2 / DIV.getD max 0)
  else (r.1, r.2 / (((p32 - 1) / max + 1) % p32))

/-- The divisor `msws_uint32_max` divides the raw draw by: `DIV[max]` for
`max < 64`, `UINT32_MAX / max + 1U` otherwise. -/
def msws_div (max : Nat) : Nat :=
  if max < 64 then DIV.getD max 0 else ((p32 - 1) / max + 1) % p32

/-- Embedding of `msws_uint64` (msws.h lines 94-97):

`return (((uint64_t)msws_uint32(ctx)) << 32U) | msws_uint32(ctx);`

The C standard leaves the evaluation order of the two operands of `|`
unspecified; the embedding fixes the documented left-to-right order (the
first draw supplies the high word), which is the behaviour of the
reference build. -/
def msws_uint64 (ctx : Ctx) : Ctx × Nat :=
  let r1 := msws_uint32 ctx
  let r2 := msws_uint32 r1.1
  (r2.1, ((r1.2 <<< 32) % p64) ||| r2.2)

/-- Embedding of the aligned fast path of `msws_bytes` (msws.h lines
101-108): `n` iterations of `*ptr++ = msws_uint32(ctx);`, each storing
one 32-bit draw as 4 bytes.  The C store writes the native in-memory
representation of the `uint32_t`; the embedding fixes the byte order of
the little-endian reference host, least-significant byte first. -/
def wordPath : Nat → Ctx → Ctx × List Nat
  | 0, ctx => (ctx, [])
  | n + 1, ctx =>
    let r := msws_uint32 ctx
    let rest := wordPath n r.1
    (rest.1, r.2 % 256 :: r.2 / 256 % 256 :: r.2 / 65536 % 256 ::
      r.2 / 16777216 % 256 :: rest.2)

/-- Embedding of the byte-wise slow path of `msws_bytes` (msws.h lines
110-115):

`for(size_t sft = 0U; len; --len, sft = (sft + 1U) & 3U)`
`  *buffer++ = (uint8_t)(sft ? (tmp >>= 8U) : (tmp = msws_uint32(ctx)));`

The produced bytes are returned as a list; `tmp` and `sft` are the loop
variables (the initial `tmp` is never read because `sft` starts at `0`). -/
def bytePath : Nat → Ctx → Nat → Nat → Ctx × List Nat
  | 0, ctx, _, _ => (ctx, [])
  | len + 1, ctx, tmp, sft =>
    if sft = 0 then
      let r := msws_uint32 ctx
      let rest := bytePath len r.1 r.2 ((sft + 1) % 4)
      (rest.1, r.2 % 256 :: rest.2)
    else
      let t := tmp / 256
      let rest := bytePath len ctx t ((sft + 1) % 4)
      (rest.1, t % 256 :: rest.2)

/-- Embedding of `msws_bytes` (msws.h lines 99-117).  The run-time test
`(((uintptr_t)buffer) & 3U) == 0U` on the buffer address is not
representable in the embedding and is abstracted as the argument
`aligned`; the length test `(len & 3U) == 0U` is `len % 4 = 0`. -/
def msws_bytes (ctx : Ctx) (len : Nat) (aligned : Bool) : Ctx × List Nat :=
  if len % 4 = 0 ∧ aligned then wordPath (len / 4) ctx
  else bytePath len ctx 0 0

/-- Embedding of `msws_init` (msws.h lines 119-127):

`ctx[0] = 0; ctx[1] = 0;`
`ctx[2] = (((uint64_t)seed) << 1U) + 0xB5AD4ECEDA1CE2A9;`
`for (int i = 0; i < 13; ++i) { volatile uint32_t q = msws_uint32(ctx); }` -/
def msws_init (seed : Nat) : Ctx :=
  let c0 : Ctx := ⟨0, 0, ((seed <<< 1) + 0xB5AD4ECEDA1CE2A9) % p64⟩
  (List.range 13).foldl (fun c _ => (msws_uint32 c).1) c0

/-! ### Helper lemmas -/

theorem stepN_add (m n : Nat) (c : Ctx) : stepN (m + n) c = stepN m (stepN n c) :=
  Function.iterate_add_apply step m n c

theorem stepN_succ_shift (n : Nat) (c : Ctx) : stepN (n + 1) c = stepN n (step c) := by
  simp [stepN, Function.iterate_add_apply]

/-- The 32-bit rotation `(x >> 32) | (x << 32)` of a 64-bit word swaps its
two 32-bit halves. -/
theorem rot32_eq_swap (a : Nat) (h : a < p64) :
    (a >>> 32) ||| ((a <<< 32) % p64) = a % p32 * p32 + a / p32 := by
  simp only [p32, p64] at h ⊢
  have hs : (a <<< 32) % 2 ^ 64 = a % 2 ^ 32 * 2 ^ 32 := by
    rw [Nat.shiftLeft_eq, show (2:Nat) ^ 64 = 2 ^ 32 * 2 ^ 32 by norm_num,
      Nat.mul_mod_mul_right]
  have hd : a / 2 ^ 32 < 2 ^ 32 := by
    rw [Nat.div_lt_iff_lt_mul (by norm_num : (0:Nat) < 2 ^ 32)]
    calc a < 2 ^ 64 := h
    _ = 2 ^ 32 * 2 ^ 32 := by norm_num
  rw [hs, Nat.shiftRight_eq_div_pow, Nat.lor_comm,
    Nat.mul_comm (a % 2 ^ 32) (2 ^ 32), ← Nat.mul_add_lt_is_or hd (a % 2 ^ 32),
    Nat.mul_comm (2 ^ 32) (a % 2 ^ 32)]

/-- Every raw draw is a valid `uint32_t` value. -/
theorem msws_uint32_lt (c : Ctx) : (msws_uint32 c).2 < p32 :=
  Nat.mod_lt _ (by norm_num [p32])

/-- Swapping the halves of a 64-bit word yields a 64-bit word. -/
theorem swap_lt (m : Nat) (h : m < p64) : m % p32 * p32 + m / p32 < p64 := by
  have h1 : m % p32 < p32 := Nat.mod_lt _ (by norm_num [p32])
  have h2 : m / p32 < p32 := by
    rw [Nat.div_lt_iff_lt_mul (show 0 < p32 by norm_num [p32])]
    calc m < p64 := h
    _ = p32 * p32 := by norm_num [p32, p64]
  calc m % p32 * p32 + m / p32 ≤ (p32 - 1) * p32 + (p32 - 1) :=
      Nat.add_le_add (Nat.mul_le_mul_right _ (Nat.le_sub_one_of_lt h1))
        (Nat.le_sub_one_of_lt h2)
  _ < p64 := by norm_num [p32, p64]

/-- The new `x` stored by a raw draw is a valid `uint64_t` value. -/
theorem msws_uint32_x_lt (c : Ctx) : (msws_uint32 c).1.x < p64 := by
  have hx1 : (c.x * c.x % p64 + (c.w + c.s) % p64) % p64 < p64 :=
    Nat.mod_lt _ (by norm_num [p64])
  show (_ >>> 32) ||| (_ % p64) < p64
  rw [rot32_eq_swap _ hx1]
  exact swap_lt _ hx1

/-- C1: one raw 32-bit draw performs exactly the documented update: square
`x`, advance the Weyl accumulator `w` by `s`, add it to `x`, all modulo
`2 ^ 64`; swap the two 32-bit halves of `x`; store the swapped value as
the new `x` and return its low 32 bits.  `s` is unchanged. -/
theorem msws_uint32_spec (x w s : Nat) :
    msws_uint32 ⟨x, w, s⟩ =
      (let xsq := x * x % p64
       let w1 := (w + s) % p64
       let x1 := (xsq + w1) % p64
       let xr := x1 % p32 * p32 + x1 / p32
       (⟨xr, w1, s⟩, xr % p32)) := by
  show ((⟨(_ >>> 32) ||| (_ % p64), _, _⟩ : Ctx), _) = _
  have hx1 : (x * x % p64 + (w + s) % p64) % p64 < p64 :=
    Nat.mod_lt _ (by norm_num [p64])
  simp only [rot32_eq_swap _ hx1]

/-- The warm-up loop of `msws_init` is `13` iterated raw-draw steps. -/
theorem foldl_range_step (n : Nat) (c : Ctx) :
    (List.range n).foldl (fun c _ => (msws_uint32 c).1) c = stepN n c := by
  induction n with
  | zero => rfl
  | succ k ih =>
    rw [List.range_succ, List.foldl_append, ih]
    simp only [List.foldl_cons, List.foldl_nil]
    rw [stepN, stepN, Function.iterate_succ_apply']
    rfl

/-- C4: seeding sets `x = 0`, `w = 0`, `s = (seed << 1) + 0xB5AD4ECEDA1CE2A9`
(a fixed odd constant with nonzero upper 32 bits) and then performs exactly
13 discarded raw-draw steps; it is a total function, so it always
succeeds. -/
theorem msws_init_spec (seed : Nat) :
    msws_init seed = stepN 13 ⟨0, 0, (seed <<< 1 + 0xB5AD4ECEDA1CE2A9) % p64⟩ ∧
    0xB5AD4ECEDA1CE2A9 % 2 = 1 ∧ (0xB5AD4ECEDA1CE2A9 : Nat) / p32 ≠ 0 := by
  refine ⟨?_, by decide, by decide⟩
  rw [msws_init]
  exact foldl_range_step 13 _

/-- One raw-draw step never changes `s`. -/
theorem step_s (c : Ctx) : (step c).s = c.s := rfl

/-- Iterated raw-draw steps never change `s`. -/
theorem stepN_s (n : Nat) (c : Ctx) : (stepN n c).s = c.s := by
  induction n with
  | zero => rfl
  | succ k ih => rw [stepN, Function.iterate_succ_apply', ← stepN]; rw [step_s, ih]

/-- C5: for every 32-bit seed the constant `s` installed by seeding is odd
and has nonzero upper 32 bits, raw draws never change `s`, and therefore
the invariant holds in every state reachable after seeding. -/
theorem s_invariant (seed n : Nat) (h : seed < p32) :
    (∀ c : Ctx, ((msws_uint32 c).1).s = c.s) ∧
    (stepN n (msws_init seed)).s % 2 = 1 ∧
    (stepN n (msws_init seed)).s / p32 ≠ 0 := by
  have hinit : (msws_init seed).s = (seed <<< 1 + 0xB5AD4ECEDA1CE2A9) % p64 := by
    rw [msws_init]
    rw [foldl_range_step, stepN_s]
  have h32 : seed < 2 ^ 32 := h
  have hlt : seed <<< 1 + 0xB5AD4ECEDA1CE2A9 < p64 := by
    rw [Nat.shiftLeft_eq]
    show seed * 2 ^ 1 + 0xB5AD4ECEDA1CE2A9 < 2 ^ 64
    omega
  have hs : (stepN n (msws_init seed)).s =
      seed <<< 1 + 0xB5AD4ECEDA1CE2A9 := by
    rw [stepN_s, hinit, Nat.mod_eq_of_lt hlt]
  refine ⟨fun c => rfl, ?_, ?_⟩
  · rw [hs, Nat.shiftLeft_eq]
    omega
  · rw [hs]
    intro h0
    have h1 : seed <<< 1 + 0xB5AD4ECEDA1CE2A9 < p32 :=
      (Nat.div_eq_zero_iff (by norm_num [p32] : 0 < p32)).mp h0
    have h2 : (0xB5AD4ECEDA1CE2A9 : Nat) ≥ p32 := by norm_num [p32]
    omega

theorem s_invariant_witness :
    0 < p32 ∧ ((∀ c : Ctx, ((msws_uint32 c).1).s = c.s) ∧
      (stepN 1 (msws_init 0)).s % 2 = 1 ∧
      (stepN 1 (msws_init 0)).s / p32 ≠ 0) :=
  ⟨by decide, s_invariant 0 1 (by decide)⟩

/-- C7: a 64-bit draw is `hi * 2 ^ 32 + lo` where `hi` is the first of two
consecutive raw draws and `lo` the second (taken on the advanced state),
and it advances the state by exactly two raw-draw steps. -/
theorem msws_uint64_spec (c : Ctx) :
    msws_uint64 c =
      (stepN 2 c,
       (msws_uint32 c).2 * p32 + (msws_uint32 (msws_uint32 c).1).2) := by
  have hhi := msws_uint32_lt c
  have hlo := msws_uint32_lt (msws_uint32 c).1
  have hsh : ((msws_uint32 c).2 <<< 32) % p64 = (msws_uint32 c).2 * p32 := by
    rw [Nat.shiftLeft_eq, Nat.mod_eq_of_lt]
    · rfl
    · have h1 : (msws_uint32 c).2 < 2 ^ 32 := hhi
      show (msws_uint32 c).2 * 2 ^ 32 < 2 ^ 64
      omega
  show (stepN 2 c, (((msws_uint32 c).2 <<< 32) % p64) |||
      (msws_uint32 (msws_uint32 c).1).2) = _
  rw [hsh, Nat.mul_comm (msws_uint32 c).2 p32, p32,
    ← Nat.mul_add_lt_is_or (by simpa [p32] using hlo) (msws_uint32 c).2,
    Nat.mul_comm ((2:Nat) ^ 32) (msws_uint32 c).2]

/-! ### Bounded draw -/

/-- Modelled from the spec: the bounded draw "should fail fast (signal an
invalid-argument condition)" on the precondition violation `max = 0`
"rather than silently returning a degenerate value".  The source has no
such check; this definition follows the spec's words, signalling the
condition as `none`. -/
def msws_uint32_max_checked (ctx : Ctx) (max : Nat) : Option (Ctx × Nat) :=
  if max = 0 then none else some (msws_uint32_max ctx max)

/-- Both branches of `msws_uint32_max` divide the raw draw by `msws_div`. -/
theorem msws_uint32_max_eq (c : Ctx) (max : Nat) :
    msws_uint32_max c max =
      ((msws_uint32 c).1, (msws_uint32 c).2 / msws_div max) := by
  rw [msws_uint32_max, msws_div]
  by_cases h : max < 64 <;> simp [h]

/-- Every entry of the divisor table is positive. -/
theorem DIV_pos : ∀ m : Fin 64, 0 < DIV.getD m.val 0 := by decide

/-- For bounds from 2 to 63 the table divisor is large enough:
`max * DIV[max]` reaches `2 ^ 32`. -/
theorem DIV_mul_ge : ∀ m : Fin 64, 2 ≤ m.val → p32 ≤ m.val * DIV.getD m.val 0 := by
  decide

/-- For bounds of 64 and more the `uint32_t` expression
`UINT32_MAX / max + 1U` does not wrap. -/
theorem msws_div_large (max : Nat) (h : 64 ≤ max) :
    msws_div max = (p32 - 1) / max + 1 := by
  rw [msws_div, if_neg (by omega)]
  apply Nat.mod_eq_of_lt
  have h1 : (p32 - 1) / max ≤ (p32 - 1) / 64 :=
    Nat.div_le_div_left h (by norm_num)
  have h2 : (p32 - 1) / 64 = 67108863 := by decide
  have h3 : p32 = 4294967296 := by decide
  omega

/-- C2 (amended): for every bound from 2 to 100000 and every state
whatsoever (in particular every state reachable after seeding), the
bounded draw is strictly below the bound.  (As stated, with bound 1
included, the claim is refuted by `msws_uint32_max_one_counterexample`.) -/
theorem msws_uint32_max_lt (c : Ctx) (max : Nat) (h2 : 2 ≤ max)
    (h1 : max ≤ 100000) : (msws_uint32_max c max).2 < max := by
  rw [msws_uint32_max_eq]
  have hr := msws_uint32_lt c
  by_cases hm : max < 64
  · have hdiv : p32 ≤ max * DIV.getD max 0 := DIV_mul_ge ⟨max, hm⟩ h2
    have hpos : 0 < DIV.getD max 0 := DIV_pos ⟨max, hm⟩
    show (msws_uint32 c).2 / msws_div max < max
    rw [msws_div, if_pos hm, Nat.div_lt_iff_lt_mul hpos]
    calc (msws_uint32 c).2 < p32 := hr
    _ ≤ max * DIV.getD max 0 := hdiv
  · have hm64 : 64 ≤ max := by omega
    show (msws_uint32 c).2 / msws_div max < max
    rw [msws_div_large max hm64,
      Nat.div_lt_iff_lt_mul (Nat.succ_pos ((p32 - 1) / max))]
    have hmod : (p32 - 1) % max < max := Nat.mod_lt _ (by omega)
    have hdm := Nat.div_add_mod (p32 - 1) max
    have hp : p32 = 4294967296 := by decide
    calc (msws_uint32 c).2 ≤ p32 - 1 := by omega
    _ = max * ((p32 - 1) / max) + (p32 - 1) % max := hdm.symm
    _ < max * ((p32 - 1) / max) + max := Nat.add_lt_add_left hmod _
    _ = max * ((p32 - 1) / max + 1) := by ring

theorem msws_uint32_max_lt_witness :
    2 ≤ 6 ∧ 6 ≤ 100000 ∧ (msws_uint32_max ⟨0, 0, 1⟩ 6).2 < 6 :=
  ⟨by decide, by decide, msws_uint32_max_lt ⟨0, 0, 1⟩ 6 (by decide) (by decide)⟩

set_option maxRecDepth 8000

/-- C2 is refuted as stated: the state reached from seed `2579447` by 542
raw draws after seeding is reachable, its next raw draw is `0xFFFFFFFF`,
and the bounded draw with `max = 1` on it returns `1`, not a value below
`1`. -/
theorem msws_uint32_max_one_counterexample :
    ¬ ((msws_uint32_max (stepN 542 (msws_init 2579447)) 1).2 < 1) := by
  have h0 : msws_init 2579447 =
      ⟨8336096454520457298, 4164985784832022955, 13091206342170614423⟩ := by
    decide
  have h1 : stepN 100
      (⟨8336096454520457298, 4164985784832022955, 13091206342170614423⟩ : Ctx) =
      ⟨6101607338341356470, 3566790768515300519, 13091206342170614423⟩ := by
    decide
  have h2 : stepN 100
      (⟨6101607338341356470, 3566790768515300519, 13091206342170614423⟩ : Ctx) =
      ⟨17500957829516576357, 2968595752198578083, 13091206342170614423⟩ := by
    decide
  have h3 : stepN 100
      (⟨17500957829516576357, 2968595752198578083, 13091206342170614423⟩ : Ctx) =
      ⟨991889915849425262, 2370400735881855647, 13091206342170614423⟩ := by
    decide
  have h4 : stepN 100
      (⟨991889915849425262, 2370400735881855647, 13091206342170614423⟩ : Ctx) =
      ⟨10195492409323588053, 1772205719565133211, 13091206342170614423⟩ := by
    decide
  have h5 : stepN 100
      (⟨10195492409323588053, 1772205719565133211, 13091206342170614423⟩ : Ctx) =
      ⟨11261803925630571154, 1174010703248410775, 13091206342170614423⟩ := by
    decide
  have h6 : stepN 42
      (⟨11261803925630571154, 1174010703248410775, 13091206342170614423⟩ : Ctx) =
      ⟨2687665113411152056, 16049098936837219677, 13091206342170614423⟩ := by
    decide
  have hstate : stepN 542 (msws_init 2579447) =
      ⟨2687665113411152056, 16049098936837219677, 13091206342170614423⟩ := by
    rw [h0, show (542 : Nat) = 42 + (100 + (100 + (100 + (100 + 100)))) from rfl,
      stepN_add, stepN_add, stepN_add, stepN_add, stepN_add,
      h1, h2, h3, h4, h5, h6]
  rw [hstate]
  decide

/-- C6 is refuted as stated at `max = 64`: the divisor computed by the
code is `UINT32_MAX / 64 + 1 = 2 ^ 26`, not `2 ^ 32 / 64 + 1 = 2 ^ 26 + 1`. -/
theorem msws_div_64_counterexample : ¬ (msws_div 64 = p32 / 64 + 1) := by
  decide

/-- C6 (amended): for every bound of 64 or more the on-the-fly divisor is
`(2 ^ 32 - 1) / max + 1`; this equals the claimed `2 ^ 32 / max + 1`
whenever `max` does not divide `2 ^ 32`, and the bounded draw is one raw
draw integer-divided by that divisor. -/
theorem msws_div_spec (c : Ctx) (max : Nat) (h : 64 ≤ max) :
    msws_div max = (p32 - 1) / max + 1 ∧
    (¬ max ∣ p32 → msws_div max = p32 / max + 1) ∧
    msws_uint32_max c max =
      ((msws_uint32 c).1, (msws_uint32 c).2 / msws_div max) := by
  refine ⟨msws_div_large max h, ?_, msws_uint32_max_eq c max⟩
  intro hnd
  rw [msws_div_large max h]
  have e : p32 - 1 + 1 = p32 := by decide
  have : p32 / max = (p32 - 1) / max := by
    rw [← e]
    exact Nat.succ_div_of_not_dvd (by rw [e]; exact hnd)
  omega

theorem msws_div_spec_witness :
    64 ≤ 100 ∧
    (msws_div 100 = (p32 - 1) / 100 + 1 ∧
      (¬ (100 : Nat) ∣ p32 → msws_div 100 = p32 / 100 + 1) ∧
      msws_uint32_max ⟨0, 0, 1⟩ 100 =
        ((msws_uint32 ⟨0, 0, 1⟩).1, (msws_uint32 ⟨0, 0, 1⟩).2 / msws_div 100)) :=
  ⟨by decide, msws_div_spec ⟨0, 0, 1⟩ 100 (by decide)⟩

/-- C8 is refuted as stated: at `max = 0` the code does not signal the
invalid-argument condition the spec calls for (modelled by
`msws_uint32_max_checked`); it silently returns a value. -/
theorem msws_uint32_max_zero_counterexample :
    some (msws_uint32_max ⟨0, 0, 1⟩ 0) ≠ msws_uint32_max_checked ⟨0, 0, 1⟩ 0 := by
  decide

/-- C8 (amended): calling the bounded draw with `max = 0` violates the
`max ≥ 1` precondition, but the code does not fail fast: it silently
returns one raw draw divided by `DIV[0] = 0xFFFFFFFF`, a value of at most
`1`, and advances the state by one raw-draw step. -/
theorem msws_uint32_max_zero_spec (c : Ctx) :
    msws_uint32_max c 0 = ((msws_uint32 c).1, (msws_uint32 c).2 / 0xFFFFFFFF) ∧
    (msws_uint32_max c 0).2 ≤ 1 := by
  have he : msws_uint32_max c 0 =
      ((msws_uint32 c).1, (msws_uint32 c).2 / 0xFFFFFFFF) := by
    rw [msws_uint32_max_eq]
    rfl
  refine ⟨he, ?_⟩
  rw [he]
  have hr : (msws_uint32 c).2 ≤ 0xFFFFFFFF := by
    have := msws_uint32_lt c
    have hp : p32 = 4294967296 := by decide
    omega
  calc (msws_uint32 c).2 / 0xFFFFFFFF ≤ 0xFFFFFFFF / 0xFFFFFFFF :=
      Nat.div_le_div_right hr
  _ = 1 := by norm_num

/-- C10: the bounded draw is total for every 32-bit `max`, `0` included:
the divisor is positive in all cases (so no division by zero can occur),
the table entry for index `0` is `0xFFFFFFFF`, and at `max = 0` the call
returns the raw draw divided by `0xFFFFFFFF`, which is `0` unless the
draw is `0xFFFFFFFF`, when it is `1`. -/
theorem msws_uint32_max_total (c : Ctx) (max : Nat) (_hmax : max < p32) :
    0 < msws_div max ∧
    msws_div 0 = 0xFFFFFFFF ∧
    msws_uint32_max c 0 = ((msws_uint32 c).1, (msws_uint32 c).2 / 0xFFFFFFFF) ∧
    ((msws_uint32 c).2 ≠ 0xFFFFFFFF → (msws_uint32_max c 0).2 = 0) ∧
    ((msws_uint32 c).2 = 0xFFFFFFFF → (msws_uint32_max c 0).2 = 1) := by
  have hzero : msws_uint32_max c 0 =
      ((msws_uint32 c).1, (msws_uint32 c).2 / 0xFFFFFFFF) := by
    rw [msws_uint32_max_eq]
    rfl
  refine ⟨?_, by decide, hzero, ?_, ?_⟩
  · by_cases hm : max < 64
    · rw [msws_div, if_pos hm]
      exact DIV_pos ⟨max, hm⟩
    · rw [msws_div_large max (by omega)]
      exact Nat.succ_pos _
  · intro hne
    rw [hzero]
    apply Nat.div_eq_of_lt
    have := msws_uint32_lt c
    have hp : p32 = 4294967296 := by decide
    omega
  · intro heq
    rw [hzero, heq]

theorem msws_uint32_max_total_witness :
    0 < p32 ∧ 0 < msws_div 0 ∧ msws_div 0 = 0xFFFFFFFF ∧
    msws_uint32_max ⟨0, 0, 1⟩ 0 =
      ((msws_uint32 ⟨0, 0, 1⟩).1, (msws_uint32 ⟨0, 0, 1⟩).2 / 0xFFFFFFFF) ∧
    ((msws_uint32 ⟨0, 0, 1⟩).2 ≠ 0xFFFFFFFF →
      (msws_uint32_max ⟨0, 0, 1⟩ 0).2 = 0) ∧
    ((msws_uint32 ⟨0, 0, 1⟩).2 = 0xFFFFFFFF →
      (msws_uint32_max ⟨0, 0, 1⟩ 0).2 = 1) :=
  ⟨by decide, msws_uint32_max_total ⟨0, 0, 1⟩ 0 (by decide)⟩

/-! ### Byte-stream fill -/

/-- The `tmp` loop variable is dead at `sft = 0`: the first byte of a
4-byte group always comes from a fresh draw. -/
theorem bytePath_tmp_irrel (len : Nat) (c : Ctx) (t1 t2 : Nat) :
    bytePath len c t1 0 = bytePath len c t2 0 := by
  cases len with
  | zero => rfl
  | succ k => simp [bytePath]

/-- Four byte-path iterations consume exactly one raw draw and emit its
four bytes least-significant first. -/
theorem bytePath_chunk (m : Nat) (c : Ctx) (t : Nat) :
    bytePath (m + 4) c t 0 =
      ((bytePath m (msws_uint32 c).1 0 0).1,
        (msws_uint32 c).2 % 256 :: (msws_uint32 c).2 / 256 % 256 ::
        (msws_uint32 c).2 / 65536 % 256 :: (msws_uint32 c).2 / 16777216 % 256 ::
        (bytePath m (msws_uint32 c).1 0 0).2) := by
  show bytePath (m + 3 + 1) c t 0 = _
  simp only [bytePath]
  norm_num [Nat.div_div_eq_div_mul]
  rw [bytePath_tmp_irrel m (msws_uint32 c).1 ((msws_uint32 c).2 / 16777216) 0]
  exact ⟨rfl, rfl⟩

/-- On lengths that are a multiple of 4 the byte path computes exactly the
word path. -/
theorem bytePath_eq_wordPath (n : Nat) (c : Ctx) :
    bytePath (4 * n) c 0 0 = wordPath n c := by
  induction n generalizing c with
  | zero => rfl
  | succ k ih =>
    rw [show 4 * (k + 1) = 4 * k + 4 from by ring, bytePath_chunk, wordPath,
      ih (msws_uint32 c).1]

/-- The word path advances the state by one raw draw per word. -/
theorem wordPath_state (n : Nat) (c : Ctx) : (wordPath n c).1 = stepN n c := by
  induction n generalizing c with
  | zero => rfl
  | succ k ih =>
    rw [wordPath]
    show (wordPath k (step c)).1 = _
    rw [ih (step c), ← stepN_succ_shift]

/-- The byte path advances the state by one raw draw per started 4-byte
group. -/
theorem bytePath_state : ∀ (len : Nat) (c : Ctx) (t : Nat),
    (bytePath len c t 0).1 = stepN ((len + 3) / 4) c
  | 0, _, _ => rfl
  | 1, _, _ => rfl
  | 2, _, _ => rfl
  | 3, _, _ => rfl
  | (m + 4), c, t => by
    rw [bytePath_chunk]
    show (bytePath m (step c) 0 0).1 = _
    rw [bytePath_state m (step c) 0]
    rw [show (m + 4 + 3) / 4 = (m + 3) / 4 + 1 from by omega, stepN_succ_shift]

/-- Whatever the alignment test yields, `msws_bytes` computes the byte
path. -/
theorem msws_bytes_eq_bytePath (c : Ctx) (len : Nat) (f : Bool) :
    msws_bytes c len f = bytePath len c 0 0 := by
  rw [msws_bytes]
  by_cases hc : len % 4 = 0 ∧ f = true
  · rw [if_pos hc]
    have h4 : 4 * (len / 4) = len := Nat.mul_div_cancel' (Nat.dvd_of_mod_eq_zero hc.1)
    rw [← bytePath_eq_wordPath (len / 4) c, h4]
  · rw [if_neg hc]

/-- C3: the word path and the byte path produce byte-for-byte identical
output (for the lengths on which the word path runs, the multiples of 4),
`msws_bytes` returns the same bytes and state whichever path the
alignment test selects, and a 4-byte fill yields exactly the four bytes
of one raw draw, least-significant byte first. -/
theorem msws_bytes_paths_agree (c : Ctx) (len : Nat) (a b : Bool) :
    (len % 4 = 0 → wordPath (len / 4) c = bytePath len c 0 0) ∧
    msws_bytes c len a = msws_bytes c len b ∧
    (msws_bytes c 4 a).2 =
      [(msws_uint32 c).2 % 256, (msws_uint32 c).2 / 256 % 256,
       (msws_uint32 c).2 / 65536 % 256, (msws_uint32 c).2 / 16777216 % 256] := by
  refine ⟨fun h => ?_, ?_, ?_⟩
  · have h4 : 4 * (len / 4) = len := Nat.mul_div_cancel' (Nat.dvd_of_mod_eq_zero h)
    rw [← bytePath_eq_wordPath (len / 4) c, h4]
  · rw [msws_bytes_eq_bytePath, msws_bytes_eq_bytePath]
  · rw [msws_bytes_eq_bytePath]
    rw [show (4 : Nat) = 0 + 4 from rfl, bytePath_chunk]
    rfl

theorem msws_bytes_paths_agree_witness :
    wordPath (8 / 4) ⟨0, 0, 1⟩ = bytePath 8 ⟨0, 0, 1⟩ 0 0 :=
  (msws_bytes_paths_agree ⟨0, 0, 1⟩ 8 true false).1 (by decide)

/-- C9: for every starting state, requested length and alignment,
`msws_bytes` advances the generator by exactly `ceil(len / 4)` raw-draw
steps, so the post-state depends only on the prior state and the length,
not on which path executed. -/
theorem msws_bytes_state (c : Ctx) (len : Nat) (a b : Bool) :
    (msws_bytes c len a).1 = stepN ((len + 3) / 4) c ∧
    (msws_bytes c len a).1 = (msws_bytes c len b).1 := by
  have h : ∀ f : Bool, (msws_bytes c len f).1 = stepN ((len + 3) / 4) c := by
    intro f
    rw [msws_bytes_eq_bytePath, bytePath_state]
  exact ⟨h a, (h a).trans (h b).symm⟩

end Msws
